import Mathlib

/-!
Shallow embedding of the attendance roll-up pipeline of
`src/routes/attendance.js` (the `computePayload` function and the
`/refresh` route), for checking the natural-language specification
against the code.

Modelling conventions:
* JavaScript numbers that carry attendance fractions are modelled as
  exact rationals (`ℚ`); `Math.round` is `round` (⌊x + 1/2⌋, which
  agrees with `Math.round` on every rational), and
  `Number(x.toFixed(2))` is rounding to an integer multiple of 1/100.
* JavaScript string comparison (`<`, `>` on strings, used for
  `dateKey` comparisons and sorting) is code-unit lexicographic
  comparison, embedded as `jsLtb` on the character lists of Lean
  strings; `localeCompare` in the row sort is likewise modelled as
  this lexicographic comparison.
* A JavaScript `Set` is an insertion-ordered duplicate-free list,
  embedded as a `List` grown with `insertName`; a plain object used
  as a map is an association list queried with `List.lookup`.
* `Array.prototype.sort` (stable in modern engines, and used here
  with a comparator that is total on the values being sorted) is
  embedded as the stable `List.insertionSort`.
* The upstream WCL responses consumed by one run (report list, each
  report's kill-fight ids, and its DamageDone / Healing table
  entries) are bundled as pure data on each `Report`; the
  `Intl.DateTimeFormat` timezone helpers `isTueOrThuLocal` and
  `dateKeyLocal` are abstracted as the two functions of an `Env`.
-/

namespace Tempest

/-- One participant entry of an upstream activity table: `{name, type?}`. -/
structure Entry where
  name : String
  type : Option String
deriving DecidableEq, Repr

/-- One upstream event record together with the upstream data fetched for it
during a run: its kill fights and the (already extracted) DamageDone and
Healing table entries. -/
structure Report where
  code : String
  startTime : Int
  fights : List Nat
  dmgEntries : List Entry
  healEntries : List Entry
deriving DecidableEq, Repr

/-- The timezone-dependent calendar helpers `isTueOrThuLocal(_, TIMEZONE)`
and `dateKeyLocal(_, TIMEZONE)`, abstracted as functions. -/
structure Env where
  tueThu : Int → Bool
  dkey : Int → String

/-- The `PLAYER_CLASSES` allow-list. -/
def PLAYER_CLASSES : List String :=
  ["Warrior", "Rogue", "Warlock", "Paladin", "Priest", "Druid", "Hunter",
   "Mage", "Shaman", "Death Knight", "DeathKnight", "Monk", "Demon Hunter",
   "DemonHunter", "Evoker"]

/-- The `KNOWN_NPCS` deny-list. -/
def KNOWN_NPCS : List String := ["Lieutenant General Andorov", "Kaldorei Elite"]

/-- `isPlayerEntry(e)`: falsy name rejects, known NPC rejects, missing
type accepts, otherwise the type must be an allowed player class. -/
def isPlayerEntry (e : Entry) : Bool :=
  if e.name = "" then false
  else if KNOWN_NPCS.contains e.name then false
  else match e.type with
    | none => true
    | some t => PLAYER_CLASSES.contains t

/-- Code-unit lexicographic strict comparison on character lists: the
embedding of JavaScript `<` on strings. -/
def jsLtb : List Char → List Char → Bool
  | [], [] => false
  | [], _ :: _ => true
  | _ :: _, [] => false
  | a :: as, b :: bs => if a < b then true else if b < a then false else jsLtb as bs

/-- Non-strict string comparison derived from `jsLtb` (a linear order). -/
def jsLe (a b : String) : Prop := jsLtb b.data a.data = false

instance : DecidableRel jsLe := fun a b => inferInstanceAs (Decidable (_ = _))

/-- `Math.max`-style maximum for the lexicographic string order. -/
def jsMax (a b : String) : String := if jsLtb a.data b.data then b else a

/-- JavaScript `Set.add`: append the element unless it is already present
(insertion order, no duplicates). -/
def insertName (l : List String) (n : String) : List String :=
  if l.contains n then l else l ++ [n]

/-- Whitespace trimming on the character-list model of a string
(the embedding of `String.prototype.trim`). -/
def jsTrim (s : String) : String :=
  ⟨((s.data.dropWhile Char.isWhitespace).reverse.dropWhile Char.isWhitespace).reverse⟩

/-- `altMap[n] || n`: map a raw name through the alias table, falling back
to the name itself when the entry is absent or falsy (empty). -/
def canon (altMap : List (String × String)) (n : String) : String :=
  match altMap.lookup n with
  | some m => if m = "" then n else m
  | none => n

/-- The trimmed names of the player-filtered DamageDone and Healing entries
of one report (`dmgE`/`healE` and the two `presentSet.add` loops). -/
def reportNames (r : Report) : List String :=
  ((r.dmgEntries.filter isPlayerEntry) ++ (r.healEntries.filter isPlayerEntry)).map
    (fun e => jsTrim e.name)

/-- The dateKeys of the excluded-dates array
(`excludedArr.map(e => String(e?.dateKey || ''))`). -/
def excludedKeys (excludedArr : List (String × String)) : List String :=
  excludedArr.map Prod.fst

/-- The reports that survive grouping: Tue/Thu local weekday and a
non-excluded local dateKey (the `grouped` loop's `continue` filters). -/
def survivors (env : Env) (excludedArr : List (String × String))
    (reports : List Report) : List Report :=
  reports.filter (fun r =>
    env.tueThu r.startTime && !((excludedKeys excludedArr).contains (env.dkey r.startTime)))

/-- The sorted night inventory `nightKeys`: first-occurrence-ordered
distinct dateKeys of the surviving reports (`Map` key order), sorted
ascending (`Array.from(grouped.keys()).sort()`). -/
def nightKeysOf (env : Env) (excludedArr : List (String × String))
    (reports : List Report) : List String :=
  List.insertionSort jsLe
    (((survivors env excludedArr reports).map (fun r => env.dkey r.startTime)).foldl insertName [])

/-- `grouped.get(dateKey)`: the surviving reports of one night, in
arrival order. -/
def reportsFor (env : Env) (excludedArr : List (String × String))
    (reports : List Report) (d : String) : List Report :=
  (survivors env excludedArr reports).filter (fun r => env.dkey r.startTime == d)

/-- The raw presence set of one night: union of the player names of every
report that has at least one kill fight, with the empty name deleted
(`presentSet` and `presentSet.delete('')`). -/
def rawOf (env : Env) (excludedArr : List (String × String))
    (reports : List Report) (d : String) : List String :=
  ((reportsFor env excludedArr reports d).foldl
      (fun acc r => if r.fights.isEmpty then acc else (reportNames r).foldl insertName acc)
      []).filter (fun n => n ≠ "")

/-- One resolved night: its dateKey, alias-normalized presence set
(`presentMain`), and the override map stored for that dateKey
(`overridesAll[dateKey] || {}`). -/
structure Night where
  dateKey : String
  presentMain : List String
  overrides : List (String × ℚ)
deriving DecidableEq, Repr

/-- Build the `perNight` entry of one dateKey. -/
def nightOf (env : Env) (excludedArr altMap : List (String × String))
    (overridesAll : List (String × List (String × ℚ)))
    (reports : List Report) (d : String) : Night :=
  { dateKey := d
    presentMain := ((rawOf env excludedArr reports d).map (canon altMap)).foldl insertName []
    overrides := (overridesAll.lookup d).getD [] }

/-- The `perNight` array, one entry per night inventory key. -/
def perNightOf (env : Env) (excludedArr altMap : List (String × String))
    (overridesAll : List (String × List (String × ℚ)))
    (reports : List Report) : List Night :=
  (nightKeysOf env excludedArr reports).map (nightOf env excludedArr altMap overridesAll reports)

/-- The member universe `allPlayers`: every presentMain name and every
override key of every night, in first-insertion order. -/
def allPlayersOf (perNight : List Night) : List String :=
  perNight.foldl
    (fun acc night =>
      (night.overrides.map Prod.fst).foldl insertName (night.presentMain.foldl insertName acc))
    []

/-- The applied attendance value of one member on one night:
`night.nightOverrides[name] ?? (presentMain.has(name) ? 1 : 0)`. -/
def appliedValue (night : Night) (n : String) : ℚ :=
  (night.overrides.lookup n).getD (if night.presentMain.contains n then 1 else 0)

/-- One member's accumulator of the stats loop. -/
structure Stat where
  nightsAttended : ℚ
  lastSeen : String
deriving DecidableEq, Repr

/-- One iteration of the stats loop for one member on one night:
add the applied value, and advance `lastSeen` when
`applied > 0 && (!lastSeen || night.dateKey > lastSeen)`. -/
def stepStat (n : String) (s : Stat) (night : Night) : Stat :=
  let applied := appliedValue night n
  { nightsAttended := s.nightsAttended + applied
    lastSeen :=
      if 0 < applied ∧ (s.lastSeen = "" ∨ jsLtb s.lastSeen.data night.dateKey.data) then
        night.dateKey
      else s.lastSeen }

/-- The final stat of one member: the stats loop runs over the nights in
order, starting from `{ nightsAttended: 0, lastSeen: '' }`.  (In the
source the night loop is outer and the member loop inner, but each inner
iteration reads and writes only that member's entry, so per member the
computation is exactly this fold over the nights.) -/
def finalStat (perNight : List Night) (n : String) : Stat :=
  perNight.foldl (stepStat n) { nightsAttended := 0, lastSeen := "" }

/-- `Number(x.toFixed(2))`: round to an integer multiple of 1/100. -/
def round2 (q : ℚ) : ℚ := (round (q * 100) : ℤ) / 100

/-- `totalNights ? Math.round((att / totalNights) * 100) : 0`. -/
def pctOf (att : ℚ) (tot : ℕ) : ℤ :=
  if tot ≠ 0 then round (att / (tot : ℚ) * 100) else 0

/-- One output row. -/
structure Row where
  name : String
  attended : ℚ
  possible : ℕ
  pct : ℤ
  lastSeen : String
deriving DecidableEq, Repr

/-- Build the output row of one member from its final stat. -/
def mkRow (perNight : List Night) (totalNights : ℕ) (n : String) : Row :=
  let s := finalStat perNight n
  { name := n
    attended := round2 s.nightsAttended
    possible := totalNights
    pct := pctOf s.nightsAttended totalNights
    lastSeen := s.lastSeen }

/-- The row comparator `(a, b) => b.pct - a.pct || b.attended - a.attended
|| a.name.localeCompare(b.name)` as a non-strict "a sorts before b"
relation. -/
def rowLE (a b : Row) : Prop :=
  b.pct < a.pct ∨
    (a.pct = b.pct ∧
      (b.attended < a.attended ∨ (a.attended = b.attended ∧ jsLe a.name b.name)))

instance : DecidableRel rowLE := fun a b =>
  inferInstanceAs (Decidable (_ ∨ _))

/-- The sorted `rows` array of one run. -/
def rowsOf (perNight : List Night) (totalNights : ℕ) : List Row :=
  List.insertionSort rowLE ((allPlayersOf perNight).map (mkRow perNight totalNights))

/-- The JSON payload of one run (without the `perPlayerDates` map, which
is modelled separately as `perPlayerDatesOf`). -/
structure Payload where
  nights : List String
  rows : List Row
  excluded : List (String × String)
deriving DecidableEq, Repr

/-- `computePayload()`: the whole roll-up as a function of the calendar
environment, the three admin stores, and the upstream data of the run. -/
def computePayload (env : Env) (excludedArr altMap : List (String × String))
    (overridesAll : List (String × List (String × ℚ)))
    (reports : List Report) : Payload :=
  let nightKeys := nightKeysOf env excludedArr reports
  let perNight := perNightOf env excludedArr altMap overridesAll reports
  { nights := nightKeys
    rows := rowsOf perNight nightKeys.length
    excluded := excludedArr }

/-- The `perPlayerDates[name]` sequence of one member: per night in order,
the dateKey is pushed once if the member is in `presentMain`, and pushed
(again) if an override entry with value `> 0` exists for the member. -/
def perPlayerDatesOf (env : Env) (excludedArr altMap : List (String × String))
    (overridesAll : List (String × List (String × ℚ)))
    (reports : List Report) (n : String) : List String :=
  (perNightOf env excludedArr altMap overridesAll reports).flatMap (fun night =>
    (if night.presentMain.contains n then [night.dateKey] else []) ++
      (match night.overrides.lookup n with
       | some v => if 0 < v then [night.dateKey] else []
       | none => []))

/-- A cached snapshot on disk: the payload plus the `_cachedAt` stamp
added by `writeLatest`. -/
structure Cached where
  payload : Payload
  cachedAt : String
deriving DecidableEq, Repr

/-- The HTTP response of the `/refresh` route. -/
inductive Resp where
  | ok (p : Payload) (source : String)
  | err (code : ℕ) (msg : String)
deriving DecidableEq, Repr

/-- The `/refresh` route body: `computed` is the settled result of
awaiting `computePayload()` (any upstream auth/query error or other
thrown error rejects the promise and lands in the catch arm).  On
success the payload is cached by `writeLatest` and returned with
`_source: 'refresh'`; on failure the cache is not written and a single
500 error is returned. -/
def refreshRoute (cache : Option Cached) (now : String)
    (computed : Except String Payload) : Option Cached × Resp :=
  match computed with
  | .error e => (cache, .err 500 e)
  | .ok p => (some { payload := p, cachedAt := now }, .ok p "refresh")

/-- Delete one dateKey's entry from the override table (the map with the
key removed, for stating that an excluded date's overrides are inert). -/
def removeDate (d : String) (o : List (String × List (String × ℚ))) :
    List (String × List (String × ℚ)) :=
  o.filter (fun p => p.1 != d)

/-! ### Concrete fixtures for counterexamples and witnesses

A calendar environment in which every instant is a raid weekday, instant
`0` falls on `2024-01-02` and every other instant on `2024-01-04`, plus a
few tiny reports. -/

/-- Fixture: every timestamp is Tue/Thu; timestamp 0 is `2024-01-02`,
every other timestamp is `2024-01-04`. -/
def fxEnv : Env :=
  { tueThu := fun _ => true
    dkey := fun t => if t = 0 then "2024-01-02" else "2024-01-04" }

/-- Fixture: a report on the first night whose kill-fight damage table
contains player `B`. -/
def fxRepB : Report :=
  { code := "r1", startTime := 0, fights := [1]
    dmgEntries := [{ name := "B", type := none }], healEntries := [] }

/-- Fixture: a report on the first night whose kill-fight damage table
contains raw name `A`. -/
def fxRepA : Report :=
  { code := "r2", startTime := 0, fights := [1]
    dmgEntries := [{ name := "A", type := none }], healEntries := [] }

/-- Fixture: a report on the second night whose kill-fight damage table
contains player `B`. -/
def fxRepB2 : Report :=
  { code := "r3", startTime := 1, fights := [1]
    dmgEntries := [{ name := "B", type := none }], healEntries := [] }

/-! ### Helper lemmas -/

theorem contains_iff (l : List String) (a : String) : l.contains a = true ↔ a ∈ l := by
  simp [List.contains_iff_exists_mem_beq, beq_iff_eq]

theorem mem_insertName {l : List String} {n x : String} :
    x ∈ insertName l n ↔ x ∈ l ∨ x = n := by
  unfold insertName
  by_cases h : l.contains n
  · rw [if_pos h]
    rw [contains_iff] at h
    constructor
    · exact Or.inl
    · rintro (hx | rfl)
      · exact hx
      · exact h
  · rw [if_neg h]
    simp [List.mem_append]

theorem mem_foldl_insertName {l : List String} {acc : List String} {x : String} :
    x ∈ l.foldl insertName acc ↔ x ∈ acc ∨ x ∈ l := by
  induction l generalizing acc with
  | nil => simp
  | cons a t ih =>
    simp only [List.foldl_cons, ih, mem_insertName, List.mem_cons]
    tauto

theorem nodup_insertName {l : List String} {n : String} (h : l.Nodup) :
    (insertName l n).Nodup := by
  unfold insertName
  by_cases hc : l.contains n
  · rwa [if_pos hc]
  · rw [if_neg hc]
    rw [List.nodup_append]
    refine ⟨h, List.nodup_singleton n, ?_⟩
    intro a ha hb
    rw [List.mem_singleton] at hb
    subst hb
    rw [contains_iff] at hc
    exact hc ha

theorem nodup_foldl_insertName {l acc : List String} (h : acc.Nodup) :
    (l.foldl insertName acc).Nodup := by
  induction l generalizing acc with
  | nil => exact h
  | cons a t ih => exact ih (nodup_insertName h)

theorem mem_keys_of_lookup {α : Type} {l : List (String × α)} {k : String} {v : α}
    (h : l.lookup k = some v) : k ∈ l.map Prod.fst := by
  induction l with
  | nil => simp [List.lookup] at h
  | cons p t ih =>
    by_cases hk : k = p.1
    · exact List.mem_map.mpr ⟨p, List.mem_cons_self p t, hk.symm⟩
    · have hb : (k == p.1) = false := beq_eq_false_iff_ne.mpr hk
      simp only [List.lookup, hb] at h
      exact List.mem_cons_of_mem _ (ih h)

theorem lookup_filter_key {α : Type} (l : List (String × α)) (k d : String) (hk : k ≠ d) :
    (l.filter (fun p => p.1 != d)).lookup k = l.lookup k := by
  induction l with
  | nil => rfl
  | cons p t ih =>
    by_cases hp : p.1 = d
    · have h1 : (p.1 != d) = false := by simp [hp]
      have h2 : (k == p.1) = false := beq_eq_false_iff_ne.mpr (by rw [hp]; exact hk)
      simp [List.filter_cons, h1, List.lookup, h2, ih]
    · have h1 : (p.1 != d) = true := by simp [hp]
      cases hkp : (k == p.1) with
      | true => simp [List.filter_cons, h1, List.lookup, hkp]
      | false => simp [List.filter_cons, h1, List.lookup, hkp, ih]

/-! #### Lexicographic string order facts -/

theorem jsLtb_asymm {a b : List Char} (h : jsLtb a b = true) : jsLtb b a = false := by
  induction a generalizing b with
  | nil =>
    cases b with
    | nil => simp [jsLtb] at h
    | cons c t => rfl
  | cons c t ih =>
    cases b with
    | nil => simp [jsLtb] at h
    | cons d u =>
      simp only [jsLtb] at h ⊢
      rcases lt_trichotomy c d with hcd | rfl | hcd
      · simp [hcd, lt_asymm hcd]
      · simp only [lt_irrefl, if_false] at h ⊢
        exact ih h
      · simp [hcd, lt_asymm hcd] at h

theorem jsLtb_conn {a b : List Char} (hab : jsLtb a b = false) (hba : jsLtb b a = false) :
    a = b := by
  induction a generalizing b with
  | nil =>
    cases b with
    | nil => rfl
    | cons c t => simp [jsLtb] at hab
  | cons c t ih =>
    cases b with
    | nil => simp [jsLtb] at hba
    | cons d u =>
      simp only [jsLtb] at hab hba
      rcases lt_trichotomy c d with hcd | rfl | hcd
      · simp [hcd] at hab
      · simp only [lt_irrefl, if_false] at hab hba
        rw [ih hab hba]
      · simp [hcd] at hba

theorem jsLtb_trans {a b c : List Char} (hab : jsLtb a b = true) (hbc : jsLtb b c = true) :
    jsLtb a c = true := by
  induction a generalizing b c with
  | nil =>
    cases c with
    | nil =>
      cases b with
      | nil => simp [jsLtb] at hab
      | cons d u => simp [jsLtb] at hbc
    | cons d u => rfl
  | cons x t ih =>
    cases b with
    | nil => simp [jsLtb] at hab
    | cons y u =>
      cases c with
      | nil => simp [jsLtb] at hbc
      | cons z v =>
        simp only [jsLtb] at hab hbc ⊢
        rcases lt_trichotomy x y with hxy | rfl | hxy
        · rcases lt_trichotomy y z with hyz | rfl | hyz
          · simp [lt_trans hxy hyz]
          · simp [hxy]
          · simp [hyz, lt_asymm hyz] at hbc
        · rcases lt_trichotomy x z with hxz | rfl | hxz
          · simp [hxz]
          · simp only [lt_irrefl, if_false] at hab hbc ⊢
            exact ih hab hbc
          · simp [hxz, lt_asymm hxz] at hbc
        · simp [hxy, lt_asymm hxy] at hab

theorem jsLe_total (a b : String) : jsLe a b ∨ jsLe b a := by
  unfold jsLe
  by_cases h : jsLtb b.data a.data = true
  · exact Or.inr (jsLtb_asymm h)
  · exact Or.inl (eq_false_of_ne_true h)

theorem jsLe_trans {a b c : String} (hab : jsLe a b) (hbc : jsLe b c) : jsLe a c := by
  unfold jsLe at *
  by_contra hcon
  rw [Bool.not_eq_false] at hcon
  by_cases hcb : jsLtb b.data c.data = true
  · have : jsLtb b.data a.data = true := jsLtb_trans hcb hcon
    rw [hab] at this
    exact Bool.false_ne_true this
  · have hBC : b.data = c.data := jsLtb_conn (eq_false_of_ne_true hcb) hbc
    rw [hBC] at hab
    rw [hab] at hcon
    exact Bool.false_ne_true hcon

theorem jsLe_antisymm {a b : String} (hab : jsLe a b) (hba : jsLe b a) : a = b := by
  unfold jsLe at hab hba
  exact congrArg String.mk (jsLtb_conn hba hab)

instance : IsTotal String jsLe := ⟨jsLe_total⟩

instance : IsTrans String jsLe := ⟨fun _ _ _ => jsLe_trans⟩

instance : IsAntisymm String jsLe := ⟨fun _ _ => jsLe_antisymm⟩

theorem jsMax_empty (d : String) : jsMax "" d = d := by
  unfold jsMax
  cases d with
  | mk cs =>
    cases cs with
    | nil => rfl
    | cons c t => rfl

/-! #### Projections of the stats loop -/

theorem foldl_stepStat_attended (P : List Night) (n : String) (s : Stat) :
    (P.foldl (stepStat n) s).nightsAttended =
      s.nightsAttended + (P.map (fun night => appliedValue night n)).sum := by
  induction P generalizing s with
  | nil => simp
  | cons night t ih =>
    simp only [List.foldl_cons, List.map_cons, List.sum_cons, ih, stepStat]
    ring

theorem attended_eq_sum (P : List Night) (n : String) :
    (finalStat P n).nightsAttended = (P.map (fun night => appliedValue night n)).sum := by
  unfold finalStat
  rw [foldl_stepStat_attended]
  simp

theorem stepStat_lastSeen (n : String) (s : Stat) (night : Night) :
    (stepStat n s night).lastSeen =
      if 0 < appliedValue night n then jsMax s.lastSeen night.dateKey else s.lastSeen := by
  dsimp only [stepStat]
  by_cases hp : 0 < appliedValue night n
  · rw [if_pos hp]
    by_cases he : s.lastSeen = ""
    · rw [if_pos ⟨hp, Or.inl he⟩, he, jsMax_empty]
    · by_cases hlt : jsLtb s.lastSeen.data night.dateKey.data = true
      · rw [if_pos ⟨hp, Or.inr hlt⟩]
        unfold jsMax
        rw [if_pos hlt]
      · have hng : ¬(0 < appliedValue night n ∧
            (s.lastSeen = "" ∨ jsLtb s.lastSeen.data night.dateKey.data = true)) := by
          rintro ⟨-, h | h⟩
          · exact he h
          · exact hlt h
        rw [if_neg hng]
        unfold jsMax
        rw [if_neg hlt]
  · rw [if_neg hp, if_neg (by intro h; exact hp h.1)]

theorem foldl_stepStat_lastSeen (P : List Night) (n : String) (s : Stat) :
    (P.foldl (stepStat n) s).lastSeen =
      ((P.filter (fun night => decide (0 < appliedValue night n))).map Night.dateKey).foldl
        jsMax s.lastSeen := by
  induction P generalizing s with
  | nil => rfl
  | cons night t ih =>
    simp only [List.foldl_cons, List.filter_cons]
    by_cases hp : 0 < appliedValue night n
    · rw [if_pos (by simpa using hp)]
      simp only [List.map_cons, List.foldl_cons, ih]
      congr 1
      rw [stepStat_lastSeen, if_pos hp]
    · rw [if_neg (by simpa using hp)]
      rw [ih]
      congr 1
      rw [stepStat_lastSeen, if_neg hp]

theorem lastSeen_eq_fold (P : List Night) (n : String) :
    (finalStat P n).lastSeen =
      ((P.filter (fun night => decide (0 < appliedValue night n))).map Night.dateKey).foldl
        jsMax "" := by
  unfold finalStat
  rw [foldl_stepStat_lastSeen]

/-! #### Membership characterizations -/

theorem mem_allPlayersOf {P : List Night} {x : String} :
    x ∈ allPlayersOf P ↔
      ∃ night ∈ P, x ∈ night.presentMain ∨ x ∈ night.overrides.map Prod.fst := by
  unfold allPlayersOf
  suffices h : ∀ acc : List String, x ∈ P.foldl
      (fun acc night =>
        (night.overrides.map Prod.fst).foldl insertName (night.presentMain.foldl insertName acc))
      acc ↔ x ∈ acc ∨ ∃ night ∈ P, x ∈ night.presentMain ∨ x ∈ night.overrides.map Prod.fst by
    rw [h]
    simp
  intro acc
  induction P generalizing acc with
  | nil => simp
  | cons night t ih =>
    simp only [List.foldl_cons, ih, mem_foldl_insertName, List.mem_cons]
    constructor
    · rintro (((hx | hx) | hx) | ⟨m, hm, hx⟩)
      · exact Or.inl hx
      · exact Or.inr ⟨night, Or.inl rfl, Or.inl hx⟩
      · exact Or.inr ⟨night, Or.inl rfl, Or.inr hx⟩
      · exact Or.inr ⟨m, Or.inr hm, hx⟩
    · rintro (hx | ⟨m, hm | hm, hx⟩)
      · exact Or.inl (Or.inl (Or.inl hx))
      · subst hm
        rcases hx with hx | hx
        · exact Or.inl (Or.inl (Or.inr hx))
        · exact Or.inl (Or.inr hx)
      · exact Or.inr ⟨m, hm, hx⟩

theorem nodup_allPlayersOf (P : List Night) : (allPlayersOf P).Nodup := by
  unfold allPlayersOf
  suffices h : ∀ acc : List String, acc.Nodup → (P.foldl
      (fun acc night =>
        (night.overrides.map Prod.fst).foldl insertName (night.presentMain.foldl insertName acc))
      acc).Nodup from h [] List.nodup_nil
  intro acc hacc
  induction P generalizing acc with
  | nil => exact hacc
  | cons night t ih =>
    exact ih _ (nodup_foldl_insertName (nodup_foldl_insertName hacc))

theorem mem_rowsOf {P : List Night} {t : ℕ} {r : Row} :
    r ∈ rowsOf P t ↔ ∃ n ∈ allPlayersOf P, r = mkRow P t n := by
  unfold rowsOf
  rw [(List.perm_insertionSort rowLE _).mem_iff, List.mem_map]
  constructor
  · rintro ⟨n, hn, rfl⟩
    exact ⟨n, hn, rfl⟩
  · rintro ⟨n, hn, rfl⟩
    exact ⟨n, hn, rfl⟩

theorem mem_nightKeysOf {env : Env} {excludedArr : List (String × String)}
    {reports : List Report} {d : String} :
    d ∈ nightKeysOf env excludedArr reports ↔
      ∃ r ∈ survivors env excludedArr reports, env.dkey r.startTime = d := by
  unfold nightKeysOf
  rw [(List.perm_insertionSort jsLe _).mem_iff, mem_foldl_insertName]
  simp only [List.not_mem_nil, false_or, List.mem_map]

theorem not_mem_nightKeysOf_of_excluded {env : Env} {excludedArr : List (String × String)}
    {reports : List Report} {d : String} (hd : d ∈ excludedKeys excludedArr) :
    d ∉ nightKeysOf env excludedArr reports := by
  rw [mem_nightKeysOf]
  rintro ⟨r, hr, rfl⟩
  unfold survivors at hr
  rw [List.mem_filter] at hr
  have := hr.2
  rw [Bool.and_eq_true, Bool.not_eq_true'] at this
  exact absurd ((contains_iff _ _).mpr hd) (by rw [this.2]; exact Bool.false_ne_true)

theorem mem_rawOf {env : Env} {excludedArr : List (String × String)}
    {reports : List Report} {d x : String} :
    x ∈ rawOf env excludedArr reports d ↔
      x ≠ "" ∧ ∃ r ∈ reportsFor env excludedArr reports d,
        r.fights ≠ [] ∧ x ∈ reportNames r := by
  unfold rawOf
  rw [List.mem_filter]
  have key : ∀ (l : List Report) (acc : List String), x ∈ l.foldl
      (fun acc r => if r.fights.isEmpty then acc else (reportNames r).foldl insertName acc)
      acc ↔ x ∈ acc ∨ ∃ r ∈ l, r.fights ≠ [] ∧ x ∈ reportNames r := by
    intro l
    induction l with
    | nil => simp
    | cons r t ih =>
      intro acc
      simp only [List.foldl_cons]
      by_cases hf : r.fights.isEmpty
      · rw [if_pos hf, ih]
        have : r.fights = [] := List.isEmpty_iff.mp hf
        simp [this]
      · rw [if_neg hf, ih, mem_foldl_insertName]
        have : r.fights ≠ [] := fun h => hf (by simp [h])
        simp only [List.mem_cons]
        constructor
        · rintro ((hx | hx) | ⟨s, hs, hx⟩)
          · exact Or.inl hx
          · exact Or.inr ⟨r, Or.inl rfl, this, hx⟩
          · exact Or.inr ⟨s, Or.inr hs, hx⟩
        · rintro (hx | ⟨s, hs | hs, hx⟩)
          · exact Or.inl (Or.inl hx)
          · subst hs
            exact Or.inl (Or.inr hx.2)
          · exact Or.inr ⟨s, hs, hx⟩
  rw [key]
  simp only [List.not_mem_nil, false_or]
  constructor
  · rintro ⟨hmem, hne⟩
    exact ⟨by simpa using hne, hmem⟩
  · rintro ⟨hne, hmem⟩
    exact ⟨hmem, by simpa using hne⟩

theorem mem_presentMain {env : Env} {excludedArr altMap : List (String × String)}
    {overridesAll : List (String × List (String × ℚ))}
    {reports : List Report} {d y : String} :
    y ∈ (nightOf env excludedArr altMap overridesAll reports d).presentMain ↔
      ∃ x ∈ rawOf env excludedArr reports d, canon altMap x = y := by
  unfold nightOf
  simp only [mem_foldl_insertName, List.not_mem_nil, false_or, List.mem_map]

/-! #### The row ordering -/

theorem rowLE_total (a b : Row) : rowLE a b ∨ rowLE b a := by
  unfold rowLE
  rcases lt_trichotomy a.pct b.pct with hp | hp | hp
  · exact Or.inr (Or.inl hp)
  · rcases lt_trichotomy a.attended b.attended with ha | ha | ha
    · exact Or.inr (Or.inr ⟨hp.symm, Or.inl ha⟩)
    · rcases jsLe_total a.name b.name with hn | hn
      · exact Or.inl (Or.inr ⟨hp, Or.inr ⟨ha, hn⟩⟩)
      · exact Or.inr (Or.inr ⟨hp.symm, Or.inr ⟨ha.symm, hn⟩⟩)
    · exact Or.inl (Or.inr ⟨hp, Or.inl ha⟩)
  · exact Or.inl (Or.inl hp)

theorem rowLE_trans {a b c : Row} (hab : rowLE a b) (hbc : rowLE b c) : rowLE a c := by
  unfold rowLE at *
  rcases hab with h1 | ⟨hp1, h2⟩
  · rcases hbc with g1 | ⟨gp1, g2⟩
    · exact Or.inl (lt_trans g1 h1)
    · exact Or.inl (gp1 ▸ h1)
  · rcases hbc with g1 | ⟨gp1, g2⟩
    · exact Or.inl (hp1 ▸ g1)
    · refine Or.inr ⟨hp1.trans gp1, ?_⟩
      rcases h2 with h3 | ⟨ha1, h4⟩
      · rcases g2 with g3 | ⟨ga1, g4⟩
        · exact Or.inl (lt_trans g3 h3)
        · exact Or.inl (ga1 ▸ h3)
      · rcases g2 with g3 | ⟨ga1, g4⟩
        · exact Or.inl (ha1 ▸ g3)
        · exact Or.inr ⟨ha1.trans ga1, jsLe_trans h4 g4⟩

instance : IsTotal Row rowLE := ⟨rowLE_total⟩

instance : IsTrans Row rowLE := ⟨fun _ _ _ => rowLE_trans⟩

theorem rowLE_name_eq {a b : Row} (hab : rowLE a b) (hba : rowLE b a) : a.name = b.name := by
  unfold rowLE at *
  rcases hab with h1 | ⟨hp1, h2⟩
  · rcases hba with g1 | ⟨gp1, g2⟩
    · exact absurd h1 (lt_asymm g1)
    · exact absurd h1 (gp1 ▸ lt_irrefl _)
  · rcases hba with g1 | ⟨gp1, g2⟩
    · exact absurd g1 (hp1 ▸ lt_irrefl _)
    · rcases h2 with h3 | ⟨ha1, h4⟩
      · rcases g2 with g3 | ⟨ga1, g4⟩
        · exact absurd h3 (lt_asymm g3)
        · exact absurd h3 (ga1 ▸ lt_irrefl _)
      · rcases g2 with g3 | ⟨ga1, g4⟩
        · exact absurd g3 (ha1 ▸ lt_irrefl _)
        · exact jsLe_antisymm h4 g4

/-- Two sorted permutations of each other are equal as soon as the ordering
is antisymmetric on the elements actually present. -/
theorem sorted_perm_eq {α : Type} {r : α → α → Prop} :
    ∀ {l₁ l₂ : List α}, l₁.Perm l₂ → l₁.Sorted r → l₂.Sorted r →
      (∀ a ∈ l₁, ∀ b ∈ l₁, r a b → r b a → a = b) → l₁ = l₂
  | [], l₂, hp, _, _, _ => hp.nil_eq
  | a :: t₁, [], hp, _, _, _ => absurd hp.symm (by simp)
  | a :: t₁, b :: t₂, hp, hs₁, hs₂, hanti => by
    have hab : a = b := by
      by_contra hne
      have ha2 : a ∈ b :: t₂ := hp.mem_iff.mp (List.mem_cons_self a t₁)
      have hat2 : a ∈ t₂ := by
        rcases List.mem_cons.mp ha2 with h | h
        · exact absurd h hne
        · exact h
      have hb1 : b ∈ a :: t₁ := hp.mem_iff.mpr (List.mem_cons_self b t₂)
      have hbt1 : b ∈ t₁ := by
        rcases List.mem_cons.mp hb1 with h | h
        · exact absurd h.symm hne
        · exact h
      have hrab : r a b := (List.pairwise_cons.mp hs₁).1 b hbt1
      have hrba : r b a := (List.pairwise_cons.mp hs₂).1 a hat2
      exact hne (hanti a (List.mem_cons_self a t₁) b (List.mem_cons_of_mem a hbt1) hrab hrba)
    subst hab
    have hpt : t₁.Perm t₂ := hp.cons_inv
    have het : t₁ = t₂ :=
      sorted_perm_eq hpt (List.pairwise_cons.mp hs₁).2 (List.pairwise_cons.mp hs₂).2
        (fun x hx y hy => hanti x (List.mem_cons_of_mem a hx) y (List.mem_cons_of_mem a hy))
    rw [het]

/-! #### Congruence of the aggregation in the presence sets -/

theorem appliedValue_congr {night₁ night₂ : Night} (n : String)
    (hov : night₁.overrides = night₂.overrides)
    (hpm : ∀ x, x ∈ night₁.presentMain ↔ x ∈ night₂.presentMain) :
    appliedValue night₁ n = appliedValue night₂ n := by
  unfold appliedValue
  rw [hov]
  have : night₁.presentMain.contains n = night₂.presentMain.contains n := by
    by_cases h : n ∈ night₁.presentMain
    · rw [(contains_iff _ _).mpr h, ((contains_iff _ _).mpr ((hpm n).mp h)).symm]
    · have h2 : n ∉ night₂.presentMain := fun hc => h ((hpm n).mpr hc)
      rw [Bool.eq_false_iff.mpr (fun hc => h ((contains_iff _ _).mp hc)),
        Bool.eq_false_iff.mpr (fun hc => h2 ((contains_iff _ _).mp hc))]
  rw [this]

theorem foldl_stepStat_map_congr {keys : List String} {f₁ f₂ : String → Night} (n : String)
    (h : ∀ d ∈ keys,
      appliedValue (f₁ d) n = appliedValue (f₂ d) n ∧ (f₁ d).dateKey = (f₂ d).dateKey) :
    ∀ s : Stat, keys.foldl (fun s d => stepStat n s (f₁ d)) s =
      keys.foldl (fun s d => stepStat n s (f₂ d)) s := by
  induction keys with
  | nil => intro s; rfl
  | cons d t ih =>
    intro s
    have hd := h d (List.mem_cons_self d t)
    simp only [List.foldl_cons]
    have hstep : stepStat n s (f₁ d) = stepStat n s (f₂ d) := by
      dsimp only [stepStat]
      rw [hd.1, hd.2]
    rw [hstep]
    exact ih (fun e he => h e (List.mem_cons_of_mem _ he)) _

theorem finalStat_map_congr {keys : List String} {f₁ f₂ : String → Night} (n : String)
    (h : ∀ d ∈ keys,
      appliedValue (f₁ d) n = appliedValue (f₂ d) n ∧ (f₁ d).dateKey = (f₂ d).dateKey) :
    finalStat (keys.map f₁) n = finalStat (keys.map f₂) n := by
  unfold finalStat
  rw [List.foldl_map, List.foldl_map]
  exact foldl_stepStat_map_congr n h _

/-! #### Invariance of the outputs in the arrival order of the reports -/

theorem nightKeys_perm_eq {env : Env} {excludedArr : List (String × String)}
    {R₁ R₂ : List Report} (hp : R₁.Perm R₂) :
    nightKeysOf env excludedArr R₁ = nightKeysOf env excludedArr R₂ := by
  have hsp : (survivors env excludedArr R₁).Perm (survivors env excludedArr R₂) :=
    hp.filter _
  have hL : (((survivors env excludedArr R₁).map (fun r => env.dkey r.startTime)).foldl
        insertName []).Perm
      (((survivors env excludedArr R₂).map (fun r => env.dkey r.startTime)).foldl
        insertName []) := by
    rw [List.perm_ext_iff_of_nodup (nodup_foldl_insertName List.nodup_nil)
      (nodup_foldl_insertName List.nodup_nil)]
    intro x
    rw [mem_foldl_insertName, mem_foldl_insertName, (hsp.map _).mem_iff]
  unfold nightKeysOf
  exact List.eq_of_perm_of_sorted
    ((List.perm_insertionSort jsLe _).trans (hL.trans (List.perm_insertionSort jsLe _).symm))
    (List.sorted_insertionSort jsLe _) (List.sorted_insertionSort jsLe _)

theorem mem_rawOf_perm {env : Env} {excludedArr : List (String × String)}
    {R₁ R₂ : List Report} (hp : R₁.Perm R₂) (d x : String) :
    x ∈ rawOf env excludedArr R₁ d ↔ x ∈ rawOf env excludedArr R₂ d := by
  rw [mem_rawOf, mem_rawOf]
  have hrf : (reportsFor env excludedArr R₁ d).Perm (reportsFor env excludedArr R₂ d) :=
    (hp.filter _).filter _
  simp only [hrf.mem_iff]

theorem mem_presentMain_perm {env : Env} {excludedArr altMap : List (String × String)}
    {overridesAll : List (String × List (String × ℚ))}
    {R₁ R₂ : List Report} (hp : R₁.Perm R₂) (d x : String) :
    x ∈ (nightOf env excludedArr altMap overridesAll R₁ d).presentMain ↔
      x ∈ (nightOf env excludedArr altMap overridesAll R₂ d).presentMain := by
  rw [mem_presentMain, mem_presentMain]
  simp only [mem_rawOf_perm hp]

theorem rowsOf_perm_eq {env : Env} {excludedArr altMap : List (String × String)}
    {overridesAll : List (String × List (String × ℚ))}
    {R₁ R₂ : List Report} (hp : R₁.Perm R₂) :
    rowsOf (perNightOf env excludedArr altMap overridesAll R₁)
        (nightKeysOf env excludedArr R₁).length =
      rowsOf (perNightOf env excludedArr altMap overridesAll R₂)
        (nightKeysOf env excludedArr R₂).length := by
  have hkeys : nightKeysOf env excludedArr R₁ = nightKeysOf env excludedArr R₂ :=
    nightKeys_perm_eq hp
  have happ : ∀ d n, appliedValue (nightOf env excludedArr altMap overridesAll R₁ d) n =
      appliedValue (nightOf env excludedArr altMap overridesAll R₂ d) n :=
    fun d n => appliedValue_congr n rfl (mem_presentMain_perm hp d)
  have hstat : ∀ n, finalStat (perNightOf env excludedArr altMap overridesAll R₁) n =
      finalStat (perNightOf env excludedArr altMap overridesAll R₂) n := by
    intro n
    unfold perNightOf
    rw [hkeys]
    exact finalStat_map_congr n (fun d _ => ⟨happ d n, rfl⟩)
  have hmk : mkRow (perNightOf env excludedArr altMap overridesAll R₁)
        (nightKeysOf env excludedArr R₁).length =
      mkRow (perNightOf env excludedArr altMap overridesAll R₂)
        (nightKeysOf env excludedArr R₂).length := by
    funext n
    unfold mkRow
    rw [hstat n, hkeys]
  have hap : ∀ x, x ∈ allPlayersOf (perNightOf env excludedArr altMap overridesAll R₁) ↔
      x ∈ allPlayersOf (perNightOf env excludedArr altMap overridesAll R₂) := by
    intro x
    rw [mem_allPlayersOf, mem_allPlayersOf]
    unfold perNightOf
    rw [hkeys]
    simp only [List.mem_map]
    constructor
    · rintro ⟨night, ⟨d, hd, rfl⟩, hx | hx⟩
      · exact ⟨nightOf env excludedArr altMap overridesAll R₂ d, ⟨d, hd, rfl⟩,
          Or.inl ((mem_presentMain_perm hp d x).mp hx)⟩
      · exact ⟨nightOf env excludedArr altMap overridesAll R₂ d, ⟨d, hd, rfl⟩, Or.inr hx⟩
    · rintro ⟨night, ⟨d, hd, rfl⟩, hx | hx⟩
      · exact ⟨nightOf env excludedArr altMap overridesAll R₁ d, ⟨d, hd, rfl⟩,
          Or.inl ((mem_presentMain_perm hp d x).mpr hx)⟩
      · exact ⟨nightOf env excludedArr altMap overridesAll R₁ d, ⟨d, hd, rfl⟩, Or.inr hx⟩
  have hperm : (allPlayersOf (perNightOf env excludedArr altMap overridesAll R₁)).Perm
      (allPlayersOf (perNightOf env excludedArr altMap overridesAll R₂)) :=
    (List.perm_ext_iff_of_nodup (nodup_allPlayersOf _) (nodup_allPlayersOf _)).mpr hap
  unfold rowsOf
  apply sorted_perm_eq
  · refine (List.perm_insertionSort rowLE _).trans (.trans ?_
      (List.perm_insertionSort rowLE _).symm)
    rw [← hmk]
    exact hperm.map _
  · exact List.sorted_insertionSort rowLE _
  · exact List.sorted_insertionSort rowLE _
  · intro a ha b hb hab hba
    rw [(List.perm_insertionSort rowLE _).mem_iff, List.mem_map] at ha hb
    rcases ha with ⟨n₁, _, rfl⟩
    rcases hb with ⟨n₂, _, rfl⟩
    have : n₁ = n₂ := rowLE_name_eq hab hba
    rw [this]

/-! ### The claims -/

/-- C1, counterexample: in the run with one night `2024-01-02`, player `B`
observed, and an override `A ↦ 1` for that night, member `A` is resolved
present on no night (override-only credit), yet the roll-up sets `A`'s
`lastSeen` to `2024-01-02` — refuting the claim that a night with only
override credit never advances `lastSeen`. -/
theorem C1_counterexample :
    (∀ night ∈ perNightOf fxEnv [] [] [("2024-01-02", [("A", 1)])] [fxRepB],
        "A" ∉ night.presentMain) ∧
      (finalStat (perNightOf fxEnv [] [] [("2024-01-02", [("A", 1)])] [fxRepB]) "A").lastSeen =
        "2024-01-02" := by
  with_unfolding_all decide

/-- C1, amended: in the roll-up aggregation a member's `lastSeen` is the
lexicographically greatest dateKey (starting from the empty string) among
the nights whose applied value — the override value when one exists,
otherwise resolved presence — is positive; in particular a night with
only positive override credit does advance `lastSeen`. -/
theorem C1_lastSeen_amended (env : Env) (excludedArr altMap : List (String × String))
    (overridesAll : List (String × List (String × ℚ)))
    (reports : List Report) (n : String) :
    (finalStat (perNightOf env excludedArr altMap overridesAll reports) n).lastSeen =
      (((perNightOf env excludedArr altMap overridesAll reports).filter
          (fun night => decide (0 < appliedValue night n))).map Night.dateKey).foldl jsMax "" :=
  lastSeen_eq_fold _ n

/-- C2: the member's total `nightsAttended` is the sum, over the nights of
the run, of the per-night applied value, and on every night the applied
value equals the stored override when one exists for the `(dateKey, name)`
pair — regardless of resolved presence — and otherwise is 1 when the member
is in the night's resolved canonical presence set and 0 when not. -/
theorem C2_override_precedence (env : Env) (excludedArr altMap : List (String × String))
    (overridesAll : List (String × List (String × ℚ)))
    (reports : List Report) (n : String) :
    (finalStat (perNightOf env excludedArr altMap overridesAll reports) n).nightsAttended =
        ((perNightOf env excludedArr altMap overridesAll reports).map
          (fun night => appliedValue night n)).sum ∧
      ∀ night ∈ perNightOf env excludedArr altMap overridesAll reports,
        (∀ v, night.overrides.lookup n = some v → appliedValue night n = v) ∧
          (night.overrides.lookup n = none →
            appliedValue night n = if night.presentMain.contains n then 1 else 0) := by
  refine ⟨attended_eq_sum _ n, ?_⟩
  intro night _
  constructor
  · intro v hv
    unfold appliedValue
    rw [hv]
    rfl
  · intro hnone
    unfold appliedValue
    rw [hnone]
    rfl

/-- C2, witness: on the concrete night, present member `B` overridden to 0
gets applied value 0, and absent member `A` overridden to 1/2 gets applied
value 1/2. -/
theorem C2_witness :
    appliedValue (nightOf fxEnv [] [] [("2024-01-02", [("B", 0), ("A", 1/2)])] [fxRepB]
        "2024-01-02") "B" = 0 ∧
      appliedValue (nightOf fxEnv [] [] [("2024-01-02", [("B", 0), ("A", 1/2)])] [fxRepB]
        "2024-01-02") "A" = 1/2 := by
  constructor
  · exact ((C2_override_precedence fxEnv [] [] [("2024-01-02", [("B", 0), ("A", 1/2)])]
      [fxRepB] "B").2 _ (by with_unfolding_all decide)).1 0 (by with_unfolding_all decide)
  · exact ((C2_override_precedence fxEnv [] [] [("2024-01-02", [("B", 0), ("A", 1/2)])]
      [fxRepB] "A").2 _ (by with_unfolding_all decide)).1 (1/2) (by with_unfolding_all decide)

/-- C3: every output row's `possible` equals the length of the night
inventory of the run (the uniform denominator); no per-member denominator
exists. -/
theorem C3_uniform_denominator (env : Env) (excludedArr altMap : List (String × String))
    (overridesAll : List (String × List (String × ℚ))) (reports : List Report) :
    ∀ row ∈ (computePayload env excludedArr altMap overridesAll reports).rows,
      row.possible = (computePayload env excludedArr altMap overridesAll reports).nights.length := by
  intro row hrow
  have hrow' : row ∈ rowsOf (perNightOf env excludedArr altMap overridesAll reports)
      (nightKeysOf env excludedArr reports).length := hrow
  rw [mem_rowsOf] at hrow'
  rcases hrow' with ⟨n, _, rfl⟩
  rfl

/-- C3, witness: the concrete run has one night and its single row reports
`possible = 1` = length of the night inventory. -/
theorem C3_witness :
    (Row.mk "B" 1 1 100 "2024-01-02").possible =
      (computePayload fxEnv [] [] [] [fxRepB]).nights.length :=
  C3_uniform_denominator fxEnv [] [] [] [fxRepB] _ (by with_unfolding_all decide)

/-- C4: an excluded dateKey never appears in the night inventory, and the
whole payload is unchanged when the override entry stored for that dateKey
is deleted — the excluded date's overrides affect no member's attended
value, even when qualifying event records exist for the date. -/
theorem C4_excluded_dates (env : Env) (excludedArr altMap : List (String × String))
    (overridesAll : List (String × List (String × ℚ))) (reports : List Report)
    (d : String) (hd : d ∈ excludedKeys excludedArr) :
    d ∉ (computePayload env excludedArr altMap overridesAll reports).nights ∧
      computePayload env excludedArr altMap (removeDate d overridesAll) reports =
        computePayload env excludedArr altMap overridesAll reports := by
  constructor
  · exact not_mem_nightKeysOf_of_excluded hd
  · have hper : perNightOf env excludedArr altMap (removeDate d overridesAll) reports =
        perNightOf env excludedArr altMap overridesAll reports := by
      unfold perNightOf
      apply List.map_congr_left
      intro k hk
      have hkd : k ≠ d := by
        intro h
        subst h
        exact not_mem_nightKeysOf_of_excluded hd hk
      unfold nightOf removeDate
      rw [lookup_filter_key overridesAll k d hkd]
    dsimp only [computePayload]
    rw [hper]

/-- C4, witness: with `2024-01-02` excluded, one report on each of the two
dates and an override stored for the excluded date, the excluded date is
not among the nights and deleting its override entry leaves the payload
unchanged. -/
theorem C4_witness :
    "2024-01-02" ∉ (computePayload fxEnv [("2024-01-02", "skip")] []
        [("2024-01-02", [("B", 1)])] [fxRepB, fxRepB2]).nights ∧
      computePayload fxEnv [("2024-01-02", "skip")] []
          (removeDate "2024-01-02" [("2024-01-02", [("B", 1)])]) [fxRepB, fxRepB2] =
        computePayload fxEnv [("2024-01-02", "skip")] []
          [("2024-01-02", [("B", 1)])] [fxRepB, fxRepB2] :=
  C4_excluded_dates fxEnv [("2024-01-02", "skip")] [] [("2024-01-02", [("B", 1)])]
    [fxRepB, fxRepB2] "2024-01-02" (by decide)

/-- C5: every output row's `pct` is the rounding of
`unrounded attended / possible * 100` (0 when there are no nights), where
the unrounded value is the member's exact `nightsAttended` and the reported
`attended` field is that value rounded to 2 decimal places; moreover
1.5 of 3 nights gives 50 and 1 of 3 nights gives 33. -/
theorem C5_pct_rounding (env : Env) (excludedArr altMap : List (String × String))
    (overridesAll : List (String × List (String × ℚ))) (reports : List Report) :
    (∀ row ∈ (computePayload env excludedArr altMap overridesAll reports).rows,
        row.attended = round2
            (finalStat (perNightOf env excludedArr altMap overridesAll reports)
              row.name).nightsAttended ∧
          row.pct = pctOf
            (finalStat (perNightOf env excludedArr altMap overridesAll reports)
              row.name).nightsAttended
            (computePayload env excludedArr altMap overridesAll reports).nights.length) ∧
      pctOf (3 / 2) 3 = 50 ∧ pctOf 1 3 = 33 ∧ ∀ q : ℚ, pctOf q 0 = 0 := by
  refine ⟨?_, ?_, ?_, ?_⟩
  · intro row hrow
    have hrow' : row ∈ rowsOf (perNightOf env excludedArr altMap overridesAll reports)
        (nightKeysOf env excludedArr reports).length := hrow
    rw [mem_rowsOf] at hrow'
    rcases hrow' with ⟨n, _, rfl⟩
    exact ⟨rfl, rfl⟩
  · norm_num [pctOf, round_eq]
  · norm_num [pctOf, round_eq]
  · intro q
    simp [pctOf]

/-- C5, witness: the row of member `B` in the concrete one-night run has
`attended` equal to the 2-decimal rounding and `pct` equal to the rounded
ratio of its exact `nightsAttended`. -/
theorem C5_witness :
    (Row.mk "B" 1 1 100 "2024-01-02").attended =
        round2 (finalStat (perNightOf fxEnv [] [] [] [fxRepB]) "B").nightsAttended ∧
      (Row.mk "B" 1 1 100 "2024-01-02").pct =
        pctOf (finalStat (perNightOf fxEnv [] [] [] [fxRepB]) "B").nightsAttended
          (computePayload fxEnv [] [] [] [fxRepB]).nights.length :=
  (C5_pct_rounding fxEnv [] [] [] [fxRepB]).1 _ (by with_unfolding_all decide)

/-- C6: when the awaited `computePayload()` promise rejects for any reason
(upstream auth or query failure, or any thrown error), the `/refresh`
route leaves the cached snapshot exactly as it was and answers with one
500 error carrying no rows; the cache is (re)written only when the whole
payload has been computed successfully, in which case exactly that payload
is cached and returned. -/
theorem C6_failed_refresh (cache : Option Cached) (now e : String) (env : Env)
    (excludedArr altMap : List (String × String))
    (overridesAll : List (String × List (String × ℚ))) (reports : List Report) :
    refreshRoute cache now (Except.error e) = (cache, Resp.err 500 e) ∧
      refreshRoute cache now
          (Except.ok (computePayload env excludedArr altMap overridesAll reports)) =
        (some { payload := computePayload env excludedArr altMap overridesAll reports
                cachedAt := now },
         Resp.ok (computePayload env excludedArr altMap overridesAll reports) "refresh") :=
  ⟨rfl, rfl⟩

/-- C7, counterexample: with one night, player `B` observed, and overrides
`A ↦ 1`, `B ↦ 1` for that night, member `A` is resolved present nowhere yet
its `perPlayerDates` contains the night, and member `B`'s `perPlayerDates`
lists the same dateKey twice — refuting both that override-only nights are
absent from the sequence and that no dateKey appears twice. -/
theorem C7_counterexample :
    perPlayerDatesOf fxEnv [] [] [("2024-01-02", [("A", 1), ("B", 1)])] [fxRepB] "A" =
        ["2024-01-02"] ∧
      (∀ night ∈ perNightOf fxEnv [] [] [("2024-01-02", [("A", 1), ("B", 1)])] [fxRepB],
        "A" ∉ night.presentMain) ∧
      perPlayerDatesOf fxEnv [] [] [("2024-01-02", [("A", 1), ("B", 1)])] [fxRepB] "B" =
        ["2024-01-02", "2024-01-02"] := by
  with_unfolding_all decide

/-- C7, amended: for every member, `perPlayerDates` contains each night's
dateKey with multiplicity: once for resolved presence on the night plus
once for a positive override on the night — so an override-only night does
appear, and a night with both presence and a positive override appears
twice. -/
theorem C7_perPlayerDates_amended (env : Env) (excludedArr altMap : List (String × String))
    (overridesAll : List (String × List (String × ℚ)))
    (reports : List Report) (n d : String) :
    (perPlayerDatesOf env excludedArr altMap overridesAll reports n).count d =
      ((perNightOf env excludedArr altMap overridesAll reports).map (fun night =>
        (if night.dateKey = d ∧ n ∈ night.presentMain then 1 else 0) +
          (if night.dateKey = d ∧ 0 < (night.overrides.lookup n).getD 0 then 1
           else 0))).sum := by
  unfold perPlayerDatesOf
  rw [List.count_flatMap]
  apply congrArg List.sum
  apply List.map_congr_left
  intro night _
  have h12 : (List.count d ∘ fun night : Night =>
      (if night.presentMain.contains n then [night.dateKey] else []) ++
        (match night.overrides.lookup n with
         | some v => if 0 < v then [night.dateKey] else []
         | none => [])) night =
      List.count d ((if night.presentMain.contains n then [night.dateKey] else []) ++
        (match night.overrides.lookup n with
         | some v => if 0 < v then [night.dateKey] else []
         | none => [])) := rfl
  rw [h12, List.count_append]
  have h1 : List.count d (if night.presentMain.contains n then [night.dateKey] else []) =
      if night.dateKey = d ∧ n ∈ night.presentMain then 1 else 0 := by
    by_cases hc : n ∈ night.presentMain
    · rw [if_pos ((contains_iff _ _).mpr hc)]
      by_cases hdk : night.dateKey = d
      · rw [if_pos ⟨hdk, hc⟩]
        simp [List.count_cons, List.count_nil, hdk]
      · rw [if_neg (fun h => hdk h.1)]
        simp [List.count_cons, List.count_nil, hdk]
    · rw [if_neg (fun h => hc ((contains_iff _ _).mp h)), if_neg (fun h => hc h.2)]
      rfl
  have h2 : List.count d (match night.overrides.lookup n with
        | some v => if 0 < v then [night.dateKey] else []
        | none => []) =
      if night.dateKey = d ∧ 0 < (night.overrides.lookup n).getD 0 then 1 else 0 := by
    cases hl : night.overrides.lookup n with
    | none => simp [hl]
    | some v =>
      by_cases hv : 0 < v
      · by_cases hdk : night.dateKey = d
        · simp [hl, hv, hdk, List.count_cons, List.count_nil]
        · simp [hl, hv, hdk, List.count_cons, List.count_nil]
      · simp [hl, hv]
  rw [h1, h2]

/-- C8: with alias `A ↦ M` (non-empty), if raw name `A` is observed on
night `d`, `M` has no override that night, `A` is the canonical image of
no observed raw name on any night of the inventory, and `A` has no
override entry anywhere, then: `A` normalizes to `M`, `d` is in the night
inventory, `M` is in that night's resolved presence, `M`'s applied value
for that night is exactly 1, and no output row is named `A`.  Moreover a
raw name without alias entry is its own canonical name. -/
theorem C8_alias_collapse (env : Env) (excludedArr altMap : List (String × String))
    (overridesAll : List (String × List (String × ℚ))) (reports : List Report)
    (A M d : String)
    (hA : altMap.lookup A = some M) (hM : M ≠ "")
    (hobs : A ∈ rawOf env excludedArr reports d)
    (hnoov : (nightOf env excludedArr altMap overridesAll reports d).overrides.lookup M = none)
    (hAunseen : ∀ e ∈ nightKeysOf env excludedArr reports,
      ∀ x ∈ rawOf env excludedArr reports e, canon altMap x ≠ A)
    (hAnoov : ∀ night ∈ perNightOf env excludedArr altMap overridesAll reports,
      A ∉ night.overrides.map Prod.fst) :
    canon altMap A = M ∧
      d ∈ (computePayload env excludedArr altMap overridesAll reports).nights ∧
      M ∈ (nightOf env excludedArr altMap overridesAll reports d).presentMain ∧
      appliedValue (nightOf env excludedArr altMap overridesAll reports d) M = 1 ∧
      (∀ row ∈ (computePayload env excludedArr altMap overridesAll reports).rows,
        row.name ≠ A) ∧
      ∀ x, altMap.lookup x = none → canon altMap x = x := by
  have hcanon : canon altMap A = M := by
    unfold canon
    rw [hA]
    exact if_neg hM
  have hMmem : M ∈ (nightOf env excludedArr altMap overridesAll reports d).presentMain :=
    mem_presentMain.mpr ⟨A, hobs, hcanon⟩
  refine ⟨hcanon, ?_, hMmem, ?_, ?_, ?_⟩
  · rcases mem_rawOf.mp hobs with ⟨-, r, hr, -, -⟩
    unfold reportsFor at hr
    rw [List.mem_filter] at hr
    exact mem_nightKeysOf.mpr ⟨r, hr.1, by simpa using hr.2⟩
  · unfold appliedValue
    rw [hnoov, Option.getD_none]
    exact if_pos ((contains_iff _ _).mpr hMmem)
  · intro row hrow
    have hrow' : row ∈ rowsOf (perNightOf env excludedArr altMap overridesAll reports)
        (nightKeysOf env excludedArr reports).length := hrow
    rw [mem_rowsOf] at hrow'
    rcases hrow' with ⟨m, hm, rfl⟩
    show m ≠ A
    rintro rfl
    rcases mem_allPlayersOf.mp hm with ⟨night, hnight, hcase⟩
    unfold perNightOf at hnight
    rcases List.mem_map.mp hnight with ⟨e, he, rfl⟩
    rcases hcase with hcase | hcase
    · rcases mem_presentMain.mp hcase with ⟨x, hx, hcx⟩
      exact hAunseen e he x hx hcx
    · exact hAnoov _ hnight hcase
  · intro x hx
    unfold canon
    rw [hx]

/-- C8, witness: alias `A ↦ M`, one night on which raw `A` is observed and
nothing else; `A` collapses into `M`, `M` is credited exactly 1 for the
night, and no row is named `A`. -/
theorem C8_witness :
    canon [("A", "M")] "A" = "M" ∧
      "2024-01-02" ∈ (computePayload fxEnv [] [("A", "M")] [] [fxRepA]).nights ∧
      "M" ∈ (nightOf fxEnv [] [("A", "M")] [] [fxRepA] "2024-01-02").presentMain ∧
      appliedValue (nightOf fxEnv [] [("A", "M")] [] [fxRepA] "2024-01-02") "M" = 1 ∧
      (∀ row ∈ (computePayload fxEnv [] [("A", "M")] [] [fxRepA]).rows, row.name ≠ "A") ∧
      ∀ x, List.lookup x [("A", "M")] = none → canon [("A", "M")] x = x :=
  C8_alias_collapse fxEnv [] [("A", "M")] [] [fxRepA] "A" "M" "2024-01-02"
    (by decide) (by decide) (by with_unfolding_all decide) (by with_unfolding_all decide)
    (by with_unfolding_all decide) (by with_unfolding_all decide)

/-- C9: the roll-up is a deterministic function of its inputs, and its
`nights` and `rows` outputs are invariant under any reordering of the
upstream report list — aggregation only reads the resolved per-night
presence sets, and the final sort is total on the rows produced. -/
theorem C9_determinism (env : Env) (excludedArr altMap : List (String × String))
    (overridesAll : List (String × List (String × ℚ))) (R₁ R₂ : List Report)
    (hp : R₁.Perm R₂) :
    (computePayload env excludedArr altMap overridesAll R₁).nights =
        (computePayload env excludedArr altMap overridesAll R₂).nights ∧
      (computePayload env excludedArr altMap overridesAll R₁).rows =
        (computePayload env excludedArr altMap overridesAll R₂).rows :=
  ⟨nightKeys_perm_eq hp, rowsOf_perm_eq hp⟩

/-- C9, witness: swapping the arrival order of the two reports of a run
changes neither `nights` nor `rows`. -/
theorem C9_witness :
    (computePayload fxEnv [] [] [] [fxRepB, fxRepB2]).nights =
        (computePayload fxEnv [] [] [] [fxRepB2, fxRepB]).nights ∧
      (computePayload fxEnv [] [] [] [fxRepB, fxRepB2]).rows =
        (computePayload fxEnv [] [] [] [fxRepB2, fxRepB]).rows :=
  C9_determinism fxEnv [] [] [] [fxRepB, fxRepB2] [fxRepB2, fxRepB]
    (List.Perm.swap fxRepB2 fxRepB [])

/-- C10: a member gets an output row exactly when some night resolves it
present or stores an override under its name; consequently a member whose
only signal is a stored override of value 0 (never resolved present) still
gets a row, with `attended = 0`, `pct = 0` and empty `lastSeen`. -/
theorem C10_member_universe (env : Env) (excludedArr altMap : List (String × String))
    (overridesAll : List (String × List (String × ℚ))) (reports : List Report) (n : String)
    (hex : ∃ night ∈ perNightOf env excludedArr altMap overridesAll reports,
      night.overrides.lookup n = some 0)
    (hnp : ∀ night ∈ perNightOf env excludedArr altMap overridesAll reports,
      n ∉ night.presentMain)
    (hz : ∀ night ∈ perNightOf env excludedArr altMap overridesAll reports,
      night.overrides.lookup n = none ∨ night.overrides.lookup n = some 0) :
    (∀ m, (∃ row ∈ (computePayload env excludedArr altMap overridesAll reports).rows,
          row.name = m) ↔
        ∃ night ∈ perNightOf env excludedArr altMap overridesAll reports,
          m ∈ night.presentMain ∨ m ∈ night.overrides.map Prod.fst) ∧
      ∃ row ∈ (computePayload env excludedArr altMap overridesAll reports).rows,
        row.name = n ∧ row.attended = 0 ∧ row.pct = 0 ∧ row.lastSeen = "" := by
  have hrows : ∀ m, (∃ row ∈ (computePayload env excludedArr altMap overridesAll reports).rows,
      row.name = m) ↔ m ∈ allPlayersOf (perNightOf env excludedArr altMap overridesAll reports) := by
    intro m
    constructor
    · rintro ⟨row, hrow, rfl⟩
      have hrow' : row ∈ rowsOf (perNightOf env excludedArr altMap overridesAll reports)
          (nightKeysOf env excludedArr reports).length := hrow
      rw [mem_rowsOf] at hrow'
      rcases hrow' with ⟨m', hm', rfl⟩
      exact hm'
    · intro hm
      refine ⟨mkRow (perNightOf env excludedArr altMap overridesAll reports)
        (nightKeysOf env excludedArr reports).length m, ?_, rfl⟩
      exact mem_rowsOf.mpr ⟨m, hm, rfl⟩
  have happ : ∀ night ∈ perNightOf env excludedArr altMap overridesAll reports,
      appliedValue night n = 0 := by
    intro night hnight
    unfold appliedValue
    rcases hz night hnight with h | h
    · rw [h, Option.getD_none]
      exact if_neg (fun hc => hnp night hnight ((contains_iff _ _).mp hc))
    · rw [h]
      rfl
  have hstat0 : (finalStat (perNightOf env excludedArr altMap overridesAll reports)
      n).nightsAttended = 0 := by
    rw [attended_eq_sum]
    apply List.sum_eq_zero
    intro x hx
    rcases List.mem_map.mp hx with ⟨night, hnight, rfl⟩
    exact happ night hnight
  have hseen : (finalStat (perNightOf env excludedArr altMap overridesAll reports)
      n).lastSeen = "" := by
    rw [lastSeen_eq_fold]
    have hfil : (perNightOf env excludedArr altMap overridesAll reports).filter
        (fun night => decide (0 < appliedValue night n)) = [] := by
      rw [List.filter_eq_nil_iff]
      intro night hnight
      simp [happ night hnight]
    rw [hfil]
    rfl
  refine ⟨fun m => (hrows m).trans mem_allPlayersOf, ?_⟩
  rcases hex with ⟨night, hnight, hlook⟩
  have hmem : n ∈ allPlayersOf (perNightOf env excludedArr altMap overridesAll reports) :=
    mem_allPlayersOf.mpr ⟨night, hnight, Or.inr (mem_keys_of_lookup hlook)⟩
  refine ⟨mkRow (perNightOf env excludedArr altMap overridesAll reports)
    (nightKeysOf env excludedArr reports).length n, mem_rowsOf.mpr ⟨n, hmem, rfl⟩, rfl, ?_, ?_, ?_⟩
  · show round2 (finalStat _ n).nightsAttended = 0
    rw [hstat0]
    unfold round2
    norm_num
  · show pctOf (finalStat _ n).nightsAttended _ = 0
    rw [hstat0]
    unfold pctOf
    split
    · norm_num
    · rfl
  · exact hseen

/-- C10, witness: in a run with one night where only `B` is observed and an
override entry `Z ↦ 0` is stored, member `Z` gets a row with zero
attended, zero pct and empty lastSeen, and the member universe is exactly
presence plus override keys. -/
theorem C10_witness :
    (∀ m, (∃ row ∈ (computePayload fxEnv [] [] [("2024-01-02", [("Z", 0)])] [fxRepB]).rows,
          row.name = m) ↔
        ∃ night ∈ perNightOf fxEnv [] [] [("2024-01-02", [("Z", 0)])] [fxRepB],
          m ∈ night.presentMain ∨ m ∈ night.overrides.map Prod.fst) ∧
      ∃ row ∈ (computePayload fxEnv [] [] [("2024-01-02", [("Z", 0)])] [fxRepB]).rows,
        row.name = "Z" ∧ row.attended = 0 ∧ row.pct = 0 ∧ row.lastSeen = "" :=
  C10_member_universe fxEnv [] [] [("2024-01-02", [("Z", 0)])] [fxRepB] "Z"
    (by with_unfolding_all decide) (by with_unfolding_all decide)
    (by with_unfolding_all decide)

end Tempest
